import Mathlib

/-
Shallow embedding of the L2 orderbook core (src/l2.rs).

Modelling conventions:
* `BTreeMap<u64, u64>` is modelled as a list of `(key, value)` pairs kept in
  strictly ascending key order (`insertLevel` is the map insert); ascending
  iteration is the list itself, `.iter().rev()` is `List.reverse`.
* `f64` inputs (prices, quantities, factors) are modelled as `ℚ`; the cast
  `(x as u64)` on a finite value is truncation toward zero with saturation of
  negatives at 0, i.e. `(Int.floor x).toNat` (u64::MAX saturation for
  astronomically large values is not modelled).  A NaN quantity fails the
  `> 0.0` test exactly as every non-positive rational does, so pairs the code
  skips are exactly the pairs with `¬ (0 < q)`.
* `u64` arithmetic on scaled values is modelled on `ℕ` (the quantized market
  domain stays far below 2^64; debug builds of the source abort on overflow
  rather than wrap).
* `panic!` in the constructor is modelled as `Option.none`.
-/

namespace L2

/-- Fixed-point quantization: multiply by the scale factor and truncate toward
zero (`(x * factor) as u64` in the source, negatives saturating to 0). -/
def quantize (factor : ℚ) (x : ℚ) : ℕ :=
  (Int.floor (x * factor)).toNat

/-- The orderbook of src/l2.rs: two price-keyed sides plus the two scale
factors.  Sides are sorted association lists standing for `BTreeMap<u64,u64>`. -/
structure Orderbook where
  bids : List (ℕ × ℕ)
  asks : List (ℕ × ℕ)
  price_factor : ℚ
  quantity_factor : ℚ
deriving DecidableEq

def MAX_DECIMALS : ℕ := 8

def DEFAULT_DECIMALS : ℕ := 6

/-- The `match price_decimals { Some(x) => panic if x > MAX_DECIMALS ... }`
logic of `Orderbook::new`, with panic as `none`. -/
def checkDecimals : Option ℕ → Option ℕ
  | some x => if MAX_DECIMALS < x then none else some x
  | none => some DEFAULT_DECIMALS

/-- `Orderbook::new(price_decimals, quantity_decimals)`: empty sides, scale
factors `10^decimals`; panics (here: `none`) when either argument exceeds 8. -/
def Orderbook.new (price_decimals quantity_decimals : Option ℕ) : Option Orderbook :=
  match checkDecimals price_decimals, checkDecimals quantity_decimals with
  | some pd, some qd => some ⟨[], [], (10 : ℚ) ^ pd, (10 : ℚ) ^ qd⟩
  | _, _ => none

/-- Insert-or-replace into a key-sorted association list: the model of
`BTreeMap::insert`. -/
def insertLevel (k v : ℕ) : List (ℕ × ℕ) → List (ℕ × ℕ)
  | [] => [(k, v)]
  | x :: xs =>
    if k < x.1 then (k, v) :: x :: xs
    else if k = x.1 then (k, v) :: xs
    else x :: insertLevel k v xs

/-- Key lookup in a side (the model of `BTreeMap::get`), used to state what a
side contains at a given quantized price. -/
def lookupLevel (l : List (ℕ × ℕ)) (k : ℕ) : Option ℕ :=
  (l.find? (fun x => x.1 == k)).map Prod.snd

/-- One side's update loop in `Orderbook::process`: for each `(price, quantity)`
pair, if `quantity > 0.0` insert the quantized pair, otherwise do nothing. -/
def applySide (pf qf : ℚ) (updates : List (ℚ × ℚ)) (side : List (ℕ × ℕ)) : List (ℕ × ℕ) :=
  updates.foldl
    (fun s u => if 0 < u.2 then insertLevel (quantize pf u.1) (quantize qf u.2) s else s)
    side

/-- `Orderbook::process(bids, asks, is_snapshot)`: clear both sides when
`is_snapshot`, then run both update loops. -/
def Orderbook.process (b : Orderbook) (bids asks : List (ℚ × ℚ)) (is_snapshot : Bool) :
    Orderbook :=
  let bids0 := if is_snapshot then [] else b.bids
  let asks0 := if is_snapshot then [] else b.asks
  { b with
    bids := applySide b.price_factor b.quantity_factor bids bids0
    asks := applySide b.price_factor b.quantity_factor asks asks0 }

/-- `get_best_bid`: first element of descending bid iteration, i.e. the
greatest key. -/
def Orderbook.get_best_bid (b : Orderbook) : Option (ℕ × ℕ) :=
  b.bids.reverse.head?

/-- `get_best_ask`: first element of ascending ask iteration, i.e. the least
key. -/
def Orderbook.get_best_ask (b : Orderbook) : Option (ℕ × ℕ) :=
  b.asks.head?

/-- `get_weighted_mid_price`: best-level liquidity-weighted midpoint, computed
on the scaled integers and divided as floats (here: in `ℚ`). -/
def Orderbook.get_weighted_mid_price (b : Orderbook) : Option ℚ :=
  match b.get_best_bid with
  | none => none
  | some bb =>
    match b.get_best_ask with
    | none => none
    | some ba =>
      some (((bb.1 * bb.2 + ba.1 * ba.2 : ℕ) : ℚ) / ((bb.2 + ba.2 : ℕ) : ℚ))

/-- The accumulation loop of `get_weighted_bid` / `get_weighted_ask`:
`(numerator, total_quantity)` accumulated over the side in `u64`. -/
def weightedAcc (l : List (ℕ × ℕ)) : ℕ × ℕ :=
  l.foldl (fun a x => (a.1 + x.1 * x.2, a.2 + x.2)) (0, 0)

/-- `get_weighted_bid`: none on an empty side, else the integer-accumulated
`numerator / total_quantity` as a float (here: `ℚ`) division. -/
def Orderbook.get_weighted_bid (b : Orderbook) : Option ℚ :=
  if b.bids = [] then none
  else some (((weightedAcc b.bids).1 : ℚ) / ((weightedAcc b.bids).2 : ℚ))

/-- `get_weighted_ask`: same loop over the ask side. -/
def Orderbook.get_weighted_ask (b : Orderbook) : Option ℚ :=
  if b.asks = [] then none
  else some (((weightedAcc b.asks).1 : ℚ) / ((weightedAcc b.asks).2 : ℚ))

/-- The quantity-summing loop of `get_total_bid_quantity` /
`get_total_ask_quantity`. -/
def totalQuantityAcc (l : List (ℕ × ℕ)) : ℕ :=
  l.foldl (fun n x => n + x.2) 0

/-- `get_total_bid_quantity`: summed scaled quantity divided back into human
units by `quantity_factor`. -/
def Orderbook.get_total_bid_quantity (b : Orderbook) : ℚ :=
  ((totalQuantityAcc b.bids : ℕ) : ℚ) / b.quantity_factor

/-- `get_total_ask_quantity`: ask-side version. -/
def Orderbook.get_total_ask_quantity (b : Orderbook) : ℚ :=
  ((totalQuantityAcc b.asks : ℕ) : ℚ) / b.quantity_factor

/-- The level walk shared by `simulate_taker_buy` / `simulate_taker_sell`:
returns `(amount_remaining, price_numerator)` after the loop.  The branch
`ask_quantity > &amount_remaining` is the strict test of the source; equality
falls through to full consumption of the level. -/
def walkLevels : ℕ → ℕ → List (ℕ × ℕ) → ℕ × ℕ
  | remaining, numerator, [] => (remaining, numerator)
  | remaining, numerator, x :: rest =>
    if remaining < x.2 then (0, numerator + remaining * x.1)
    else walkLevels (remaining - x.2) (numerator + x.2 * x.1) rest

/-- `simulate_taker_buy`: walk the asks in ascending order; the final
`match amount_remaining { 0 => None, _ => Some(...) }` is transcribed exactly
as written in the source. -/
def Orderbook.simulate_taker_buy (b : Orderbook) (quantity : ℚ) : Option ℚ :=
  let scaled_quantity := quantize b.quantity_factor quantity
  let r := walkLevels scaled_quantity 0 b.asks
  match r.1 with
  | 0 => none
  | _ => some ((r.2 : ℚ) / (b.quantity_factor * quantity))

/-- `simulate_taker_sell`: identical loop over `bids.iter().rev()`, i.e. the
reversed bid list. -/
def Orderbook.simulate_taker_sell (b : Orderbook) (quantity : ℚ) : Option ℚ :=
  let scaled_quantity := quantize b.quantity_factor quantity
  let r := walkLevels scaled_quantity 0 b.bids.reverse
  match r.1 with
  | 0 => none
  | _ => some ((r.2 : ℚ) / (b.quantity_factor * quantity))

/-- Book states reachable from a successful construction by any sequence of
`process` calls. -/
inductive Reachable : Orderbook → Prop
  | base (pd qd : Option ℕ) (b : Orderbook) : Orderbook.new pd qd = some b → Reachable b
  | step (b : Orderbook) (bids asks : List (ℚ × ℚ)) (snap : Bool) :
      Reachable b → Reachable (b.process bids asks snap)

/-- Book states reachable by `process` calls whose update pairs are either
non-positive or at least one quantum (`quantity * quantity_factor ≥ 1`):
the restriction under which the no-zero-quantity invariant does hold. -/
inductive ReachableUnit : Orderbook → Prop
  | base (pd qd : Option ℕ) (b : Orderbook) : Orderbook.new pd qd = some b → ReachableUnit b
  | step (b : Orderbook) (bids asks : List (ℚ × ℚ)) (snap : Bool) :
      ReachableUnit b →
      (∀ u ∈ bids, 0 < u.2 → 1 ≤ u.2 * b.quantity_factor) →
      (∀ u ∈ asks, 0 < u.2 → 1 ≤ u.2 * b.quantity_factor) →
      ReachableUnit (b.process bids asks snap)

/-- Map view of a snapshot's input list: the quantized quantity of the last
pair whose raw quantity is positive and whose quantized price is `j`. -/
def snapshotLevel (pf qf : ℚ) (us : List (ℚ × ℚ)) (j : ℕ) : Option ℕ :=
  us.foldl
    (fun acc u =>
      if 0 < u.2 ∧ quantize pf u.1 = j then some (quantize qf u.2) else acc)
    none

/-- Specification-side sum `Σ price·qty` over a side. -/
def sumPQ (l : List (ℕ × ℕ)) : ℕ :=
  (l.map (fun x => x.1 * x.2)).sum

/-- Specification-side sum `Σ qty` over a side. -/
def sumQ (l : List (ℕ × ℕ)) : ℕ :=
  (l.map Prod.snd).sum

/-- One side of the book is strictly sorted by quantized price: the `BTreeMap`
representation invariant. -/
def SortedSide (l : List (ℕ × ℕ)) : Prop :=
  l.Pairwise (fun a b => a.1 < b.1)

/-- A fixed concrete book with both decimal precisions 0 (both factors 1),
as produced by `Orderbook.new (some 0) (some 0)`. -/
def obZero : Orderbook := ⟨[], [], 1, 1⟩

/-- Concrete reachable book holding an ask level with stored quantity 0: the
raw quantity 1/2 passes the `> 0.0` test but quantizes to 0 under factor 1. -/
def bookHalf : Orderbook := obZero.process [] [(3, 1/2)] false

/-- Concrete reachable book whose single bid level has stored quantity 0
(raw quantity 2/5, factor 1), used against the weighted-average range claim. -/
def bookZeroQty : Orderbook := obZero.process [(1, 2/5)] [] true

/-- Concrete reachable book built with one whole-quantum bid update. -/
def bookUnit : Orderbook := obZero.process [(2, 3)] [] false

/-- Concrete reachable book with two bid levels and one ask level. -/
def bookTwo : Orderbook := obZero.process [(1, 5), (2, 7)] [(3, 4)] true

theorem mem_insertLevel {k v : ℕ} {l : List (ℕ × ℕ)} {x : ℕ × ℕ}
    (h : x ∈ insertLevel k v l) : x = (k, v) ∨ x ∈ l := by
  induction l with
  | nil =>
    simp only [insertLevel, List.mem_singleton] at h
    exact Or.inl h
  | cons y ys ih =>
    simp only [insertLevel] at h
    by_cases h1 : k < y.1
    · rw [if_pos h1] at h
      exact List.mem_cons.mp h
    · rw [if_neg h1] at h
      by_cases h2 : k = y.1
      · rw [if_pos h2] at h
        rcases List.mem_cons.mp h with h3 | h3
        · exact Or.inl h3
        · exact Or.inr (List.mem_cons_of_mem _ h3)
      · rw [if_neg h2] at h
        rcases List.mem_cons.mp h with h3 | h3
        · exact Or.inr (h3 ▸ List.mem_cons_self _ _)
        · rcases ih h3 with h4 | h4
          · exact Or.inl h4
          · exact Or.inr (List.mem_cons_of_mem _ h4)

theorem lookupLevel_nil (j : ℕ) : lookupLevel [] j = none := rfl

theorem lookupLevel_cons (y : ℕ × ℕ) (ys : List (ℕ × ℕ)) (j : ℕ) :
    lookupLevel (y :: ys) j = if y.1 = j then some y.2 else lookupLevel ys j := by
  by_cases h : y.1 = j
  · simp [lookupLevel, List.find?_cons_of_pos, h]
  · simp [lookupLevel, List.find?_cons_of_neg, h]

theorem lookupLevel_insertLevel (k v j : ℕ) (l : List (ℕ × ℕ)) :
    lookupLevel (insertLevel k v l) j = if j = k then some v else lookupLevel l j := by
  induction l with
  | nil =>
    simp only [insertLevel, lookupLevel_cons, lookupLevel_nil]
    by_cases h : k = j
    · subst h
      simp
    · have h' : ¬ j = k := fun hc => h hc.symm
      simp [h, h']
  | cons y ys ih =>
    simp only [insertLevel]
    by_cases h1 : k < y.1
    · simp only [if_pos h1, lookupLevel_cons]
      by_cases h : k = j
      · subst h
        simp
      · have h' : ¬ j = k := fun hc => h hc.symm
        simp [h, h']
    · by_cases h2 : k = y.1
      · simp only [if_neg h1, if_pos h2, lookupLevel_cons]
        by_cases h : k = j
        · subst h
          simp
        · have h' : ¬ j = k := fun hc => h hc.symm
          have h'' : ¬ y.1 = j := fun hc => h (h2.trans hc)
          simp [h, h', h'']
      · simp only [if_neg h1, if_neg h2, lookupLevel_cons, ih]
        by_cases h : y.1 = j
        · have h' : ¬ j = k := fun hc => h2 (h.trans hc).symm
          simp [h, h']
        · simp [h]

theorem sortedSide_insertLevel {k v : ℕ} {l : List (ℕ × ℕ)}
    (h : SortedSide l) : SortedSide (insertLevel k v l) := by
  induction l with
  | nil => simp [insertLevel, SortedSide]
  | cons y ys ih =>
    rcases List.pairwise_cons.mp h with ⟨hy, hys⟩
    simp only [insertLevel]
    by_cases h1 : k < y.1
    · rw [if_pos h1]
      refine List.Pairwise.cons ?_ h
      intro z hz
      rcases List.mem_cons.mp hz with h2 | h2
      · rw [h2]; exact h1
      · exact lt_trans h1 (hy z h2)
    · rw [if_neg h1]
      by_cases h2 : k = y.1
      · rw [if_pos h2]
        refine List.Pairwise.cons ?_ hys
        intro z hz
        exact h2 ▸ hy z hz
      · rw [if_neg h2]
        have h3 : y.1 < k := lt_of_le_of_ne (not_lt.mp h1) (fun hc => h2 hc.symm)
        refine List.Pairwise.cons ?_ (ih hys)
        intro z hz
        rcases mem_insertLevel hz with h4 | h4
        · rw [h4]; exact h3
        · exact hy z h4

theorem applySide_nil (pf qf : ℚ) (side : List (ℕ × ℕ)) :
    applySide pf qf [] side = side := rfl

theorem applySide_cons (pf qf : ℚ) (u : ℚ × ℚ) (us : List (ℚ × ℚ))
    (side : List (ℕ × ℕ)) :
    applySide pf qf (u :: us) side =
      applySide pf qf us
        (if 0 < u.2 then insertLevel (quantize pf u.1) (quantize qf u.2) side else side) :=
  rfl

theorem lookupLevel_applySide (pf qf : ℚ) (us : List (ℚ × ℚ)) :
    ∀ (side : List (ℕ × ℕ)) (j : ℕ),
      lookupLevel (applySide pf qf us side) j =
        us.foldl
          (fun acc u =>
            if 0 < u.2 ∧ quantize pf u.1 = j then some (quantize qf u.2) else acc)
          (lookupLevel side j) := by
  induction us with
  | nil => intro side j; rfl
  | cons u us ih =>
    intro side j
    rw [applySide_cons, ih, List.foldl_cons]
    congr 1
    by_cases hpos : 0 < u.2
    · rw [if_pos hpos, lookupLevel_insertLevel]
      by_cases hj : j = quantize pf u.1
      · rw [if_pos hj, if_pos ⟨hpos, hj.symm⟩]
      · rw [if_neg hj, if_neg (fun hc : 0 < u.2 ∧ quantize pf u.1 = j => hj hc.2.symm)]
    · rw [if_neg hpos, if_neg (fun hc : 0 < u.2 ∧ quantize pf u.1 = j => hpos hc.1)]

theorem applySide_filter_pos (pf qf : ℚ) (us : List (ℚ × ℚ)) :
    ∀ side, applySide pf qf (us.filter fun u => decide (0 < u.2)) side =
      applySide pf qf us side := by
  induction us with
  | nil => intro side; rfl
  | cons u us ih =>
    intro side
    by_cases hpos : 0 < u.2
    · rw [List.filter_cons_of_pos (by simpa using hpos)]
      simp only [applySide_cons, if_pos hpos]
      exact ih _
    · rw [List.filter_cons_of_neg (by simpa using hpos), applySide_cons, if_neg hpos]
      exact ih side

theorem mem_applySide {pf qf : ℚ} {us : List (ℚ × ℚ)} :
    ∀ {side : List (ℕ × ℕ)} {x : ℕ × ℕ}, x ∈ applySide pf qf us side →
      (∃ u ∈ us, 0 < u.2 ∧ x = (quantize pf u.1, quantize qf u.2)) ∨ x ∈ side := by
  induction us with
  | nil => intro side x h; exact Or.inr h
  | cons u us ih =>
    intro side x h
    rw [applySide_cons] at h
    rcases ih h with h1 | h1
    · obtain ⟨w, hw, hw2⟩ := h1
      exact Or.inl ⟨w, List.mem_cons_of_mem _ hw, hw2⟩
    · by_cases hpos : 0 < u.2
      · rw [if_pos hpos] at h1
        rcases mem_insertLevel h1 with h2 | h2
        · exact Or.inl ⟨u, List.mem_cons_self _ _, hpos, h2⟩
        · exact Or.inr h2
      · rw [if_neg hpos] at h1
        exact Or.inr h1

theorem sortedSide_applySide (pf qf : ℚ) (us : List (ℚ × ℚ)) :
    ∀ {side : List (ℕ × ℕ)}, SortedSide side → SortedSide (applySide pf qf us side) := by
  induction us with
  | nil => intro side h; exact h
  | cons u us ih =>
    intro side h
    rw [applySide_cons]
    by_cases hpos : 0 < u.2
    · rw [if_pos hpos]; exact ih (sortedSide_insertLevel h)
    · rw [if_neg hpos]; exact ih h

theorem weightedAcc_eq (l : List (ℕ × ℕ)) : weightedAcc l = (sumPQ l, sumQ l) := by
  have key : ∀ (xs : List (ℕ × ℕ)) (a : ℕ × ℕ),
      xs.foldl (fun a x => (a.1 + x.1 * x.2, a.2 + x.2)) a = (a.1 + sumPQ xs, a.2 + sumQ xs) := by
    intro xs
    induction xs with
    | nil => intro a; simp [sumPQ, sumQ]
    | cons x xs ih =>
      intro a
      rw [List.foldl_cons, ih]
      simp only [sumPQ, sumQ, List.map_cons, List.sum_cons, Prod.mk.injEq]
      omega
  simpa [weightedAcc] using key l (0, 0)

theorem totalQuantityAcc_eq (l : List (ℕ × ℕ)) : totalQuantityAcc l = sumQ l := by
  have key : ∀ (xs : List (ℕ × ℕ)) (a : ℕ),
      xs.foldl (fun n x => n + x.2) a = a + sumQ xs := by
    intro xs
    induction xs with
    | nil => intro a; simp [sumQ]
    | cons x xs ih =>
      intro a
      rw [List.foldl_cons, ih]
      simp only [sumQ, List.map_cons, List.sum_cons]
      omega
  simpa [totalQuantityAcc] using key l 0

theorem quantize_pos {f x : ℚ} (h : 1 ≤ x * f) : 0 < quantize f x := by
  have h1 : (1 : ℤ) ≤ Int.floor (x * f) := by
    rw [Int.le_floor]
    exact_mod_cast h
  unfold quantize
  omega

theorem new_eq_some {pd qd : Option ℕ} {b : Orderbook}
    (h : Orderbook.new pd qd = some b) :
    b.bids = [] ∧ b.asks = [] ∧
      b.price_factor = (10 : ℚ) ^ (pd.getD DEFAULT_DECIMALS) ∧
      b.quantity_factor = (10 : ℚ) ^ (qd.getD DEFAULT_DECIMALS) := by
  cases pd with
  | none =>
    cases qd with
    | none =>
      simp only [Orderbook.new, checkDecimals, Option.some.injEq] at h
      rw [← h]
      simp
    | some y =>
      simp only [Orderbook.new, checkDecimals] at h
      by_cases hy : MAX_DECIMALS < y
      · rw [if_pos hy] at h; cases h
      · rw [if_neg hy] at h
        simp only [Option.some.injEq] at h
        rw [← h]
        simp
  | some x =>
    cases qd with
    | none =>
      simp only [Orderbook.new, checkDecimals] at h
      by_cases hx : MAX_DECIMALS < x
      · rw [if_pos hx] at h; cases h
      · rw [if_neg hx] at h
        simp only [Option.some.injEq] at h
        rw [← h]
        simp
    | some y =>
      simp only [Orderbook.new, checkDecimals] at h
      by_cases hx : MAX_DECIMALS < x
      · rw [if_pos hx] at h; cases h
      · rw [if_neg hx] at h
        by_cases hy : MAX_DECIMALS < y
        · rw [if_pos hy] at h; cases h
        · rw [if_neg hy] at h
          simp only [Option.some.injEq] at h
          rw [← h]
          simp

theorem process_bids (b : Orderbook) (bids asks : List (ℚ × ℚ)) (snap : Bool) :
    (b.process bids asks snap).bids =
      applySide b.price_factor b.quantity_factor bids (if snap then [] else b.bids) :=
  rfl

theorem process_asks (b : Orderbook) (bids asks : List (ℚ × ℚ)) (snap : Bool) :
    (b.process bids asks snap).asks =
      applySide b.price_factor b.quantity_factor asks (if snap then [] else b.asks) :=
  rfl

theorem process_price_factor (b : Orderbook) (bids asks : List (ℚ × ℚ)) (snap : Bool) :
    (b.process bids asks snap).price_factor = b.price_factor :=
  rfl

theorem process_quantity_factor (b : Orderbook) (bids asks : List (ℚ × ℚ)) (snap : Bool) :
    (b.process bids asks snap).quantity_factor = b.quantity_factor :=
  rfl

theorem foldl_if_update_isSome {α β : Type} (g : α → Prop) [DecidablePred g] (f : α → β)
    (us : List α) :
    ∀ a : Option β, a.isSome = true →
      (us.foldl (fun acc u => if g u then some (f u) else acc) a).isSome = true := by
  induction us with
  | nil => intro a h; exact h
  | cons u us ih =>
    intro a h
    rw [List.foldl_cons]
    apply ih
    by_cases hg : g u
    · rw [if_pos hg]; rfl
    · rw [if_neg hg]; exact h

theorem head?_mem {α : Type} {l : List α} {x : α} (h : l.head? = some x) : x ∈ l := by
  cases l with
  | nil => cases h
  | cons y ys =>
    cases h
    exact List.mem_cons_self _ _

theorem sum_le_mul_of_bounds {l : List (ℕ × ℕ)} {m M : ℕ}
    (hm : ∀ x ∈ l, m ≤ x.1) (hM : ∀ x ∈ l, x.1 ≤ M) :
    m * sumQ l ≤ sumPQ l ∧ sumPQ l ≤ M * sumQ l := by
  induction l with
  | nil => simp [sumPQ, sumQ]
  | cons x xs ih =>
    have hx1 : m ≤ x.1 := hm x (List.mem_cons_self _ _)
    have hx2 : x.1 ≤ M := hM x (List.mem_cons_self _ _)
    have ihx := ih (fun y hy => hm y (List.mem_cons_of_mem _ hy))
      (fun y hy => hM y (List.mem_cons_of_mem _ hy))
    simp only [sumPQ, sumQ, List.map_cons, List.sum_cons] at *
    constructor
    · calc m * (x.2 + (xs.map Prod.snd).sum)
          = m * x.2 + m * (xs.map Prod.snd).sum := by ring
        _ ≤ x.1 * x.2 + (xs.map (fun y => y.1 * y.2)).sum :=
          Nat.add_le_add (Nat.mul_le_mul_right _ hx1) ihx.1
    · calc x.1 * x.2 + (xs.map (fun y => y.1 * y.2)).sum
          ≤ M * x.2 + M * (xs.map Prod.snd).sum :=
          Nat.add_le_add (Nat.mul_le_mul_right _ hx2) ihx.2
        _ = M * (x.2 + (xs.map Prod.snd).sum) := by ring

theorem weighted_ratio_bounds {l : List (ℕ × ℕ)} {m M : ℕ} (hq : 0 < sumQ l)
    (hm : ∀ x ∈ l, m ≤ x.1) (hM : ∀ x ∈ l, x.1 ≤ M) :
    (m : ℚ) ≤ (sumPQ l : ℚ) / (sumQ l : ℚ) ∧ (sumPQ l : ℚ) / (sumQ l : ℚ) ≤ (M : ℚ) := by
  obtain ⟨h1, h2⟩ := sum_le_mul_of_bounds hm hM
  have hq' : (0 : ℚ) < (sumQ l : ℚ) := by exact_mod_cast hq
  constructor
  · rw [le_div_iff₀ hq']
    exact_mod_cast h1
  · rw [div_le_iff₀ hq']
    calc (sumPQ l : ℚ) ≤ ((M * sumQ l : ℕ) : ℚ) := by exact_mod_cast h2
      _ = (M : ℚ) * (sumQ l : ℚ) := by push_cast; ring

theorem reachable_sorted {b : Orderbook} (h : Reachable b) :
    SortedSide b.bids ∧ SortedSide b.asks := by
  induction h with
  | base pd qd b hb =>
    obtain ⟨h1, h2, _⟩ := new_eq_some hb
    rw [h1, h2]
    exact ⟨List.Pairwise.nil, List.Pairwise.nil⟩
  | step b bids asks snap _ ih =>
    cases snap with
    | false =>
      exact ⟨sortedSide_applySide _ _ _ ih.1, sortedSide_applySide _ _ _ ih.2⟩
    | true =>
      exact ⟨sortedSide_applySide _ _ _ List.Pairwise.nil,
        sortedSide_applySide _ _ _ List.Pairwise.nil⟩

/-- C1: evaluation of the simulators at requests exceeding the total depth of
the consumed side.  The source's final `match amount_remaining` is inverted
(`0 => None, _ => Some(..)`), so an over-depth request does NOT return the
empty result: on an empty ask side a buy of 1.0 returns `Some 0`, and against
a single ask level `(1, 2)` a buy of 3.0 returns the partial-fill average
`2/3`; the sell direction over bids behaves identically.  This contradicts the
claim (and `simulate_market_order` in src/orderbook.rs, which orders the same
two outcomes correctly), so the claim stands and the code is the slip. -/
theorem C1_overdepth_returns_partial_fill :
    Orderbook.new (some 0) (some 0) = some obZero ∧
    obZero.simulate_taker_buy 1 = some 0 ∧
    (obZero.process [] [(1, 2)] true).simulate_taker_buy 3 = some (2 / 3) ∧
    (obZero.process [(1, 2)] [] true).simulate_taker_sell 3 = some (2 / 3) := by
  refine ⟨?_, ?_, ?_, ?_⟩
  · norm_num [Orderbook.new, checkDecimals, MAX_DECIMALS, DEFAULT_DECIMALS, obZero]
  · norm_num [Orderbook.simulate_taker_buy, walkLevels, quantize, obZero]
  · norm_num [Orderbook.simulate_taker_buy, Orderbook.process, applySide, insertLevel,
      walkLevels, quantize, obZero]
    rfl
  · norm_num [Orderbook.simulate_taker_sell, Orderbook.process, applySide, insertLevel,
      walkLevels, quantize, obZero]
    rfl

/-- C2: evaluation of `simulate_taker_buy` at requests the book can fill.
Against a single ask level `(1, 2)` (total ask depth 2 in human units, as
`get_total_ask_quantity` confirms), a buy of exactly 2.0 — the boundary case
`levelQuantity == remaining` — and a buy of 1.0 both walk to
`amount_remaining == 0`, and the source's inverted final `match` then returns
`None` instead of the average price the claim requires (the sell direction
identically).  The claim matches the spec and src/orderbook.rs; the code is
the slip. -/
theorem C2_fillable_returns_none :
    (obZero.process [] [(1, 2)] true).get_total_ask_quantity = 2 ∧
    (obZero.process [] [(1, 2)] true).simulate_taker_buy 2 = none ∧
    (obZero.process [] [(1, 2)] true).simulate_taker_buy 1 = none ∧
    (obZero.process [(1, 2)] [] true).simulate_taker_sell 2 = none := by
  refine ⟨?_, ?_, ?_, ?_⟩
  · norm_num [Orderbook.get_total_ask_quantity, totalQuantityAcc, Orderbook.process,
      applySide, insertLevel, quantize, obZero]
    simp
  · norm_num [Orderbook.simulate_taker_buy, Orderbook.process, applySide, insertLevel,
      walkLevels, quantize, obZero]
  · norm_num [Orderbook.simulate_taker_buy, Orderbook.process, applySide, insertLevel,
      walkLevels, quantize, obZero]
  · norm_num [Orderbook.simulate_taker_sell, Orderbook.process, applySide, insertLevel,
      walkLevels, quantize, obZero]

/-- C3 counterexample: `process` never removes a level.  Starting from the book
`{1 ↦ 5}` on the bid side (factors 1), the delta pair `(1, 0)` has quantized
quantity 0 ≤ 0, so by the claim the level at quantized price `quantize 1 = 1`
must be removed; the code merely skips the pair and the level survives, so the
lookup is not `none`. -/
theorem C3_no_deletion_cex :
    ¬ (lookupLevel ((obZero.process [(1, 5)] [] true).process [(1, 0)] [] false).bids
        (quantize obZero.price_factor 1) = none) := by
  intro h
  rw [show ((obZero.process [(1, 5)] [] true).process [(1, 0)] [] false).bids = [(1, 5)] by
      norm_num [Orderbook.process, applySide, insertLevel, quantize, obZero]; simp] at h
  rw [show quantize obZero.price_factor 1 = 1 by
      norm_num [quantize, obZero]] at h
  simp [lookupLevel] at h

/-- C3 (amended): a `(price, quantity)` pair whose quantity fails the
`> 0.0` test (zero, negative — and NaN, which compares the same way) is a
complete no-op: `process` behaves as if the pair were filtered out, and in
particular an existing level at that price is never removed — delta updates
can only add or overwrite levels, never delete them. -/
theorem C3_nonpositive_pairs_ignored :
    (∀ (b : Orderbook) (bids asks : List (ℚ × ℚ)) (snap : Bool),
      b.process bids asks snap =
        b.process (bids.filter fun u => decide (0 < u.2))
          (asks.filter fun u => decide (0 < u.2)) snap) ∧
    (∀ (b : Orderbook) (bids asks : List (ℚ × ℚ)) (j : ℕ),
      (lookupLevel b.bids j).isSome = true →
      (lookupLevel (b.process bids asks false).bids j).isSome = true) ∧
    (∀ (b : Orderbook) (bids asks : List (ℚ × ℚ)) (j : ℕ),
      (lookupLevel b.asks j).isSome = true →
      (lookupLevel (b.process bids asks false).asks j).isSome = true) := by
  refine ⟨?_, ?_, ?_⟩
  · intro b bids asks snap
    simp only [Orderbook.process]
    rw [applySide_filter_pos, applySide_filter_pos]
  · intro b bids asks j h
    rw [process_bids]
    simp only [Bool.false_eq_true, if_false]
    rw [lookupLevel_applySide]
    exact foldl_if_update_isSome _ _ _ _ h
  · intro b bids asks j h
    rw [process_asks]
    simp only [Bool.false_eq_true, if_false]
    rw [lookupLevel_applySide]
    exact foldl_if_update_isSome _ _ _ _ h

/-- C3 witness: the no-removal conclusions applied to the concrete book
`{1 ↦ 5}` under a delta carrying a negative-quantity pair on each side. -/
theorem C3_nonpositive_pairs_ignored_witness :
    (lookupLevel ((obZero.process [(1, 5)] [(1, 5)] true).process
        [(2, -1)] [(2, -1)] false).bids 1).isSome = true ∧
    (lookupLevel ((obZero.process [(1, 5)] [(1, 5)] true).process
        [(2, -1)] [(2, -1)] false).asks 1).isSome = true := by
  constructor
  · apply C3_nonpositive_pairs_ignored.2.1 (obZero.process [(1, 5)] [(1, 5)] true)
      [(2, -1)] [(2, -1)] 1
    rw [show (obZero.process [(1, 5)] [(1, 5)] true).bids = [(1, 5)] by
        norm_num [Orderbook.process, applySide, insertLevel, quantize, obZero]; simp]
    simp [lookupLevel]
  · apply C3_nonpositive_pairs_ignored.2.2 (obZero.process [(1, 5)] [(1, 5)] true)
      [(2, -1)] [(2, -1)] 1
    rw [show (obZero.process [(1, 5)] [(1, 5)] true).asks = [(1, 5)] by
        norm_num [Orderbook.process, applySide, insertLevel, quantize, obZero]; simp]
    simp [lookupLevel]

/-- C4 counterexample: the snapshot filter is on the raw float quantity, not
the quantized one.  With factors 1, the snapshot pair `(1, 2/5)` passes
`quantity > 0.0` and is stored as the level `(1, 0)` — a level whose quantized
quantity is 0, which the claim says cannot be in the book. -/
theorem C4_zero_quantity_level_cex :
    ¬ (∀ x ∈ bookZeroQty.bids, 0 < x.2) := by
  intro h
  have hb : bookZeroQty.bids = [(1, 0)] := by
    norm_num [bookZeroQty, Orderbook.process, applySide, insertLevel, quantize, obZero]
  have := h (1, 0) (by rw [hb]; exact List.mem_singleton_self _)
  omega

/-- C4 (amended): after a snapshot call, each side — read as a price-keyed
map — holds at quantized price `j` exactly the quantized quantity of the last
pair of the corresponding input list whose RAW quantity is positive and whose
quantized price is `j` (absent when there is no such pair); the stored
quantized quantity itself may be 0.  No level of the pre-call state survives:
the result coincides with a delta applied to the empty book with the same
factors. -/
theorem C4_snapshot_exact_levels :
    ∀ (b : Orderbook) (bids asks : List (ℚ × ℚ)),
      (∀ j, lookupLevel (b.process bids asks true).bids j =
          snapshotLevel b.price_factor b.quantity_factor bids j) ∧
      (∀ j, lookupLevel (b.process bids asks true).asks j =
          snapshotLevel b.price_factor b.quantity_factor asks j) ∧
      b.process bids asks true =
        Orderbook.process ⟨[], [], b.price_factor, b.quantity_factor⟩ bids asks false := by
  intro b bids asks
  refine ⟨?_, ?_, ?_⟩
  · intro j
    rw [process_bids]
    simp only [if_pos rfl]
    rw [lookupLevel_applySide]
    rfl
  · intro j
    rw [process_asks]
    simp only [if_pos rfl]
    rw [lookupLevel_applySide]
    rfl
  · rfl

/-- C5 counterexample: a reachable book state stores a level with quantity 0.
From a fresh factor-1 book, the delta pair `(3, 1/2)` passes the raw
`quantity > 0.0` test but its quantity quantizes to 0, so the stored ask level
is `(3, 0)`, refuting the invariant that no stored level has quantity ≤ 0. -/
theorem C5_zero_quantity_reachable_cex :
    Reachable bookHalf ∧ ¬ (∀ x ∈ bookHalf.asks, 0 < x.2) := by
  constructor
  · exact Reachable.step obZero [] [(3, 1/2)] false
      (Reachable.base (some 0) (some 0) obZero (by
        norm_num [Orderbook.new, checkDecimals, MAX_DECIMALS, DEFAULT_DECIMALS, obZero]))
  · intro h
    have hb : bookHalf.asks = [(3, 0)] := by
      norm_num [bookHalf, Orderbook.process, applySide, insertLevel, quantize, obZero]
      simp
    have := h (3, 0) (by rw [hb]; exact List.mem_singleton_self _)
    omega

/-- C5 (amended): stored quantities are never negative (they are quantized
naturals) and a non-positive raw quantity is never stored — but a positive raw
quantity below one quantum is stored as a zero-quantity level.  Restricted to
update sequences whose positive quantities are at least one quantum
(`quantity * quantity_factor ≥ 1`), the claimed invariant does hold: every
stored level on either side has quantity > 0. -/
theorem C5_positive_under_unit_quantities :
    ∀ b : Orderbook, ReachableUnit b →
      (∀ x ∈ b.bids, 0 < x.2) ∧ (∀ x ∈ b.asks, 0 < x.2) := by
  intro b h
  induction h with
  | base pd qd b hb =>
    obtain ⟨h1, h2, _⟩ := new_eq_some hb
    rw [h1, h2]
    simp
  | step b bids asks snap hr hbids hasks ih =>
    constructor
    · intro x hx
      rw [process_bids] at hx
      rcases mem_applySide hx with ⟨u, hu, hupos, hx2⟩ | hx2
      · rw [hx2]
        exact quantize_pos (hbids u hu hupos)
      · cases snap with
        | true => simp at hx2
        | false =>
          simp only [Bool.false_eq_true, if_false] at hx2
          exact ih.1 x hx2
    · intro x hx
      rw [process_asks] at hx
      rcases mem_applySide hx with ⟨u, hu, hupos, hx2⟩ | hx2
      · rw [hx2]
        exact quantize_pos (hasks u hu hupos)
      · cases snap with
        | true => simp at hx2
        | false =>
          simp only [Bool.false_eq_true, if_false] at hx2
          exact ih.2 x hx2

/-- C5 witness: the amended invariant applied to the concrete book built by
one whole-quantum bid update `(2, 3)` on a factor-1 book. -/
theorem C5_positive_under_unit_quantities_witness :
    (∀ x ∈ bookUnit.bids, 0 < x.2) ∧ (∀ x ∈ bookUnit.asks, 0 < x.2) :=
  C5_positive_under_unit_quantities bookUnit
    (ReachableUnit.step obZero [(2, 3)] [] false
      (ReachableUnit.base (some 0) (some 0) obZero (by
        norm_num [Orderbook.new, checkDecimals, MAX_DECIMALS, DEFAULT_DECIMALS, obZero]))
      (by
        intro u hu
        simp only [List.mem_singleton] at hu
        subst hu
        intro _
        norm_num [obZero])
      (by simp))

/-- C6: every reachable book keeps at most one level per quantized price on
each side, and the enumeration the code uses — `bids.iter().rev()` and
`asks.iter()` over the key-sorted `BTreeMap` model — yields strictly
descending bid prices and strictly ascending ask prices. -/
theorem C6_price_ordering :
    ∀ b : Orderbook, Reachable b →
      ((b.bids.map Prod.fst).Nodup ∧ (b.asks.map Prod.fst).Nodup) ∧
      ((b.bids.reverse.map Prod.fst).Pairwise (· > ·)) ∧
      ((b.asks.map Prod.fst).Pairwise (· < ·)) := by
  intro b h
  obtain ⟨hb, ha⟩ := reachable_sorted h
  have hb' : (b.bids.map Prod.fst).Pairwise (· < ·) := List.pairwise_map.mpr hb
  have ha' : (b.asks.map Prod.fst).Pairwise (· < ·) := List.pairwise_map.mpr ha
  refine ⟨⟨hb'.imp Nat.ne_of_lt, ha'.imp Nat.ne_of_lt⟩, ?_, ha'⟩
  rw [List.map_reverse]
  exact List.pairwise_reverse.mpr hb'

/-- C6 witness: the ordering invariant applied to the concrete reachable book
with bid levels at prices 1 and 2 and an ask level at price 3. -/
theorem C6_price_ordering_witness :
    ((bookTwo.bids.map Prod.fst).Nodup ∧ (bookTwo.asks.map Prod.fst).Nodup) ∧
    ((bookTwo.bids.reverse.map Prod.fst).Pairwise (· > ·)) ∧
    ((bookTwo.asks.map Prod.fst).Pairwise (· < ·)) :=
  C6_price_ordering bookTwo
    (Reachable.step obZero [(1, 5), (2, 7)] [(3, 4)] true
      (Reachable.base (some 0) (some 0) obZero (by
        norm_num [Orderbook.new, checkDecimals, MAX_DECIMALS, DEFAULT_DECIMALS, obZero])))

/-- C7 counterexample: with the reachable book whose bid side is the single
level `(1, 0)` (raw quantity 2/5 under factor 1), the side is non-empty, so
`get_weighted_bid` returns a value, namely `0/0` — `0` in the rational model,
NaN in the source's f64 — and that value does not lie within the price range
`[1, 1]` of the side's levels, refuting the range part of the claim. -/
theorem C7_weighted_range_cex :
    bookZeroQty.get_weighted_bid = some 0 ∧
    (bookZeroQty.bids.map Prod.fst).minimum = ((1 : ℕ) : WithTop ℕ) ∧
    ¬ (((1 : ℕ) : ℚ) ≤ 0) := by
  have hb : bookZeroQty.bids = [(1, 0)] := by
    norm_num [bookZeroQty, Orderbook.process, applySide, insertLevel, quantize, obZero]
  refine ⟨?_, ?_, by norm_num⟩
  · simp only [Orderbook.get_weighted_bid, hb]
    norm_num [weightedAcc]
  · rw [hb]
    simp

/-- C7 (amended): `get_weighted_bid` / `get_weighted_ask` return the empty
result exactly when their side is empty, and on a non-empty side return the
integer-accumulated `Σ(price·qty) / Σ(qty)` of that side; provided the side's
total quantized quantity is positive (which can fail on reachable books, see
the counterexample), the returned value lies within the side's
`[min price, max price]`. -/
theorem C7_weighted_full_depth :
    ∀ b : Orderbook,
      (b.get_weighted_bid = none ↔ b.bids = []) ∧
      (b.get_weighted_ask = none ↔ b.asks = []) ∧
      (b.bids ≠ [] → b.get_weighted_bid = some ((sumPQ b.bids : ℚ) / (sumQ b.bids : ℚ))) ∧
      (b.asks ≠ [] → b.get_weighted_ask = some ((sumPQ b.asks : ℚ) / (sumQ b.asks : ℚ))) ∧
      (∀ (r : ℚ) (m M : ℕ), 0 < sumQ b.bids → b.get_weighted_bid = some r →
        (b.bids.map Prod.fst).minimum = (m : WithTop ℕ) →
        (b.bids.map Prod.fst).maximum = (M : WithBot ℕ) →
        (m : ℚ) ≤ r ∧ r ≤ (M : ℚ)) ∧
      (∀ (r : ℚ) (m M : ℕ), 0 < sumQ b.asks → b.get_weighted_ask = some r →
        (b.asks.map Prod.fst).minimum = (m : WithTop ℕ) →
        (b.asks.map Prod.fst).maximum = (M : WithBot ℕ) →
        (m : ℚ) ≤ r ∧ r ≤ (M : ℚ)) := by
  intro b
  refine ⟨?_, ?_, ?_, ?_, ?_, ?_⟩
  · constructor
    · intro h
      by_contra hne
      simp only [Orderbook.get_weighted_bid, if_neg hne] at h
      exact Option.noConfusion h
    · intro h
      simp only [Orderbook.get_weighted_bid, if_pos h]
  · constructor
    · intro h
      by_contra hne
      simp only [Orderbook.get_weighted_ask, if_neg hne] at h
      exact Option.noConfusion h
    · intro h
      simp only [Orderbook.get_weighted_ask, if_pos h]
  · intro hne
    simp only [Orderbook.get_weighted_bid, if_neg hne, weightedAcc_eq]
  · intro hne
    simp only [Orderbook.get_weighted_ask, if_neg hne, weightedAcc_eq]
  · intro r m M hq hsome hmin hmax
    have hne : b.bids ≠ [] := by
      intro h0
      rw [h0] at hq
      simp [sumQ] at hq
    have heq : r = (sumPQ b.bids : ℚ) / (sumQ b.bids : ℚ) := by
      simp only [Orderbook.get_weighted_bid, if_neg hne, weightedAcc_eq,
        Option.some.injEq] at hsome
      exact hsome.symm
    obtain ⟨hmem, hmb⟩ := List.minimum_eq_coe_iff.mp hmin
    obtain ⟨hMem, hMb⟩ := List.maximum_eq_coe_iff.mp hmax
    have hm' : ∀ x ∈ b.bids, m ≤ x.1 := fun x hx => hmb _ (List.mem_map_of_mem Prod.fst hx)
    have hM' : ∀ x ∈ b.bids, x.1 ≤ M := fun x hx => hMb _ (List.mem_map_of_mem Prod.fst hx)
    rw [heq]
    exact weighted_ratio_bounds hq hm' hM'
  · intro r m M hq hsome hmin hmax
    have hne : b.asks ≠ [] := by
      intro h0
      rw [h0] at hq
      simp [sumQ] at hq
    have heq : r = (sumPQ b.asks : ℚ) / (sumQ b.asks : ℚ) := by
      simp only [Orderbook.get_weighted_ask, if_neg hne, weightedAcc_eq,
        Option.some.injEq] at hsome
      exact hsome.symm
    obtain ⟨hmem, hmb⟩ := List.minimum_eq_coe_iff.mp hmin
    obtain ⟨hMem, hMb⟩ := List.maximum_eq_coe_iff.mp hmax
    have hm' : ∀ x ∈ b.asks, m ≤ x.1 := fun x hx => hmb _ (List.mem_map_of_mem Prod.fst hx)
    have hM' : ∀ x ∈ b.asks, x.1 ≤ M := fun x hx => hMb _ (List.mem_map_of_mem Prod.fst hx)
    rw [heq]
    exact weighted_ratio_bounds hq hm' hM'

/-- C7 witness: the range conclusion applied to the concrete reachable book
with bids `[(1, 5), (2, 7)]`: the full-depth weighted bid `19/12` lies between
the minimum bid price 1 and the maximum bid price 2. -/
theorem C7_weighted_full_depth_witness :
    (((1 : ℕ) : ℚ) ≤ 19 / 12 ∧ (19 / 12 : ℚ) ≤ ((2 : ℕ) : ℚ)) ∧
    bookTwo.get_weighted_bid = some (19 / 12) := by
  have hb : bookTwo.bids = [(1, 5), (2, 7)] := by
    norm_num [bookTwo, Orderbook.process, applySide, insertLevel, quantize, obZero]
    simp
  have hne : bookTwo.bids ≠ [] := by
    rw [hb]
    simp
  have hsome : bookTwo.get_weighted_bid = some (19 / 12) := by
    simp only [Orderbook.get_weighted_bid, hb]
    rw [if_neg (by simp : ¬ ([(1, 5), (2, 7)] : List (ℕ × ℕ)) = [])]
    norm_num [weightedAcc]
  refine ⟨?_, hsome⟩
  refine (C7_weighted_full_depth bookTwo).2.2.2.2.1 (19 / 12) 1 2 ?_ hsome ?_ ?_
  · rw [hb]
    norm_num [sumQ]
  · rw [hb]
    refine List.minimum_eq_coe_iff.mpr ⟨by simp, ?_⟩
    intro a ha
    simp at ha
    rcases ha with h | h <;> omega
  · rw [hb]
    refine List.maximum_eq_coe_iff.mpr ⟨by simp, ?_⟩
    intro a ha
    simp at ha
    rcases ha with h | h <;> omega

/-- C9: construction succeeds exactly on decimal arguments not exceeding 8
(missing arguments defaulting to 6), setting each scale factor to `10^decimals`
and both sides empty; any argument strictly greater than 8 makes construction
fail (the source's `panic!`, the spec's fatal ConfigurationError, modelled as
`none`). -/
theorem C9_construction_bounds :
    (∀ pd qd : Option ℕ,
      (∀ x, pd = some x → x ≤ 8) → (∀ x, qd = some x → x ≤ 8) →
      ∃ b, Orderbook.new pd qd = some b ∧
        b.price_factor = (10 : ℚ) ^ pd.getD 6 ∧
        b.quantity_factor = (10 : ℚ) ^ qd.getD 6 ∧
        b.bids = [] ∧ b.asks = []) ∧
    (∀ (pd qd : Option ℕ) (x : ℕ), pd = some x → 8 < x → Orderbook.new pd qd = none) ∧
    (∀ (pd qd : Option ℕ) (x : ℕ), qd = some x → 8 < x → Orderbook.new pd qd = none) := by
  refine ⟨?_, ?_, ?_⟩
  · intro pd qd hp hq
    cases pd with
    | none =>
      cases qd with
      | none => exact ⟨_, rfl, rfl, rfl, rfl, rfl⟩
      | some y =>
        have hy : ¬ MAX_DECIMALS < y := by
          have := hq y rfl
          simp only [MAX_DECIMALS]
          omega
        simp only [Orderbook.new, checkDecimals, if_neg hy]
        exact ⟨_, rfl, rfl, rfl, rfl, rfl⟩
    | some x =>
      have hx : ¬ MAX_DECIMALS < x := by
        have := hp x rfl
        simp only [MAX_DECIMALS]
        omega
      cases qd with
      | none =>
        simp only [Orderbook.new, checkDecimals, if_neg hx]
        exact ⟨_, rfl, rfl, rfl, rfl, rfl⟩
      | some y =>
        have hy : ¬ MAX_DECIMALS < y := by
          have := hq y rfl
          simp only [MAX_DECIMALS]
          omega
        simp only [Orderbook.new, checkDecimals, if_neg hx, if_neg hy]
        exact ⟨_, rfl, rfl, rfl, rfl, rfl⟩
  · intro pd qd x hpd h8
    subst hpd
    have hx : MAX_DECIMALS < x := by
      simp only [MAX_DECIMALS]
      omega
    simp [Orderbook.new, checkDecimals, if_pos hx]
  · intro pd qd x hqd h8
    subst hqd
    have hx : MAX_DECIMALS < x := by
      simp only [MAX_DECIMALS]
      omega
    cases pd with
    | none => simp [Orderbook.new, checkDecimals, if_pos hx]
    | some z =>
      by_cases hz : MAX_DECIMALS < z
      · simp [Orderbook.new, checkDecimals, if_pos hx, if_pos hz]
      · simp [Orderbook.new, checkDecimals, if_pos hx, if_neg hz]

/-- C9 witness: construction with decimals 2 (price) and default (quantity)
succeeds with factors `10^2` and `10^6`; decimals 9 on either argument fails. -/
theorem C9_construction_bounds_witness :
    (∃ b, Orderbook.new (some 2) none = some b ∧
      b.price_factor = (10 : ℚ) ^ (some 2 : Option ℕ).getD 6 ∧
      b.quantity_factor = (10 : ℚ) ^ (none : Option ℕ).getD 6 ∧
      b.bids = [] ∧ b.asks = []) ∧
    Orderbook.new (some 9) (some 1) = none ∧
    Orderbook.new none (some 9) = none := by
  refine ⟨?_, ?_, ?_⟩
  · exact C9_construction_bounds.1 (some 2) none
      (by intro x hx; cases hx; omega)
      (by intro x hx; cases hx)
  · exact C9_construction_bounds.2.1 (some 9) (some 1) 9 rfl (by omega)
  · exact C9_construction_bounds.2.2 none (some 9) 9 rfl (by omega)

/-- C10: the query interface works in quantized integer units.  `get_best_bid`
and `get_best_ask` return a `(price, quantity)` pair stored in the map; the
weighted mid / weighted bid / weighted ask are ratios of scaled integer sums
with no division by `price_factor` anywhere; the simulators' average price is
an integer scaled-price numerator divided by `quantity_factor · quantity`
(again no `price_factor`); only the total-quantity queries divide by
`quantity_factor` to return human units. -/
theorem C10_quantized_unit_queries :
    (∀ (b : Orderbook) (p q : ℕ), b.get_best_bid = some (p, q) → (p, q) ∈ b.bids) ∧
    (∀ (b : Orderbook) (p q : ℕ), b.get_best_ask = some (p, q) → (p, q) ∈ b.asks) ∧
    (∀ b : Orderbook, b.bids ≠ [] →
      b.get_weighted_bid = some ((sumPQ b.bids : ℚ) / (sumQ b.bids : ℚ))) ∧
    (∀ b : Orderbook, b.asks ≠ [] →
      b.get_weighted_ask = some ((sumPQ b.asks : ℚ) / (sumQ b.asks : ℚ))) ∧
    (∀ (b : Orderbook) (bb ba : ℕ × ℕ), b.get_best_bid = some bb → b.get_best_ask = some ba →
      b.get_weighted_mid_price =
        some (((bb.1 * bb.2 + ba.1 * ba.2 : ℕ) : ℚ) / ((bb.2 + ba.2 : ℕ) : ℚ))) ∧
    (∀ b : Orderbook, b.get_total_bid_quantity = (sumQ b.bids : ℚ) / b.quantity_factor ∧
      b.get_total_ask_quantity = (sumQ b.asks : ℚ) / b.quantity_factor) ∧
    (∀ (b : Orderbook) (q r : ℚ), b.simulate_taker_buy q = some r →
      ∃ n : ℕ, r = (n : ℚ) / (b.quantity_factor * q)) ∧
    (∀ (b : Orderbook) (q r : ℚ), b.simulate_taker_sell q = some r →
      ∃ n : ℕ, r = (n : ℚ) / (b.quantity_factor * q)) := by
  refine ⟨?_, ?_, ?_, ?_, ?_, ?_, ?_, ?_⟩
  · intro b p q h
    simp only [Orderbook.get_best_bid] at h
    exact List.mem_reverse.mp (head?_mem h)
  · intro b p q h
    simp only [Orderbook.get_best_ask] at h
    exact head?_mem h
  · intro b hne
    simp only [Orderbook.get_weighted_bid, if_neg hne, weightedAcc_eq]
  · intro b hne
    simp only [Orderbook.get_weighted_ask, if_neg hne, weightedAcc_eq]
  · intro b bb ba h1 h2
    simp only [Orderbook.get_weighted_mid_price, h1, h2]
  · intro b
    exact ⟨by simp only [Orderbook.get_total_bid_quantity, totalQuantityAcc_eq],
      by simp only [Orderbook.get_total_ask_quantity, totalQuantityAcc_eq]⟩
  · intro b q r h
    simp only [Orderbook.simulate_taker_buy] at h
    rcases hw : (walkLevels (quantize b.quantity_factor q) 0 b.asks).1 with _ | k
    · rw [hw] at h
      simp at h
    · rw [hw] at h
      simp only [Option.some.injEq] at h
      exact ⟨(walkLevels (quantize b.quantity_factor q) 0 b.asks).2, h.symm⟩
  · intro b q r h
    simp only [Orderbook.simulate_taker_sell] at h
    rcases hw : (walkLevels (quantize b.quantity_factor q) 0 b.bids.reverse).1 with _ | k
    · rw [hw] at h
      simp at h
    · rw [hw] at h
      simp only [Option.some.injEq] at h
      exact ⟨(walkLevels (quantize b.quantity_factor q) 0 b.bids.reverse).2, h.symm⟩

/-- C10 witness: the best-bid and simulator conclusions applied to the
concrete book with bids `[(1, 5), (2, 7)]` and asks `[(3, 4)]`. -/
theorem C10_quantized_unit_queries_witness :
    ((2, 7) ∈ bookTwo.bids) ∧
    (∃ n : ℕ, (12 / 7 : ℚ) = (n : ℚ) / (bookTwo.quantity_factor * 7)) := by
  constructor
  · refine C10_quantized_unit_queries.1 bookTwo 2 7 ?_
    have hb : bookTwo.bids = [(1, 5), (2, 7)] := by
      norm_num [bookTwo, Orderbook.process, applySide, insertLevel, quantize, obZero]
      simp
    simp only [Orderbook.get_best_bid, hb]
    rfl
  · refine C10_quantized_unit_queries.2.2.2.2.2.2.1 bookTwo 7 (12 / 7) ?_
    have ha : bookTwo.asks = [(3, 4)] := by
      norm_num [bookTwo, Orderbook.process, applySide, insertLevel, quantize, obZero]
      simp
    have hqf : bookTwo.quantity_factor = 1 := rfl
    simp only [Orderbook.simulate_taker_buy, ha, hqf]
    norm_num [walkLevels, quantize]
    rfl

/-- C8: applying the identical snapshot twice yields the state of applying it
once.  A snapshot clears both sides before repopulating, so the result is a
function of the update lists and the (preserved) scale factors alone. -/
theorem C8_snapshot_idempotent :
    ∀ (b : Orderbook) (bids asks : List (ℚ × ℚ)),
      (b.process bids asks true).process bids asks true = b.process bids asks true := by
  intro b bids asks
  rfl

end L2
